import Mathlib

/-!
Verification of the tool invocation and execution core of the agent runtime
(`crates/agent/src/agent`): shallow embedding of the text utilities
(`util/mod.rs`), the `fs_write`, `ls`, `image_read` and `execute_cmd` tools
(`tools/*.rs`) and the shared execution output model (`tools/mod.rs`).

Strings manipulated byte-wise by the Rust code are modelled as `List Char`
with explicit UTF-8 byte accounting via `Char.utf8Size`; raw file bytes are
modelled as `List Nat` (each element one byte).  The file is organised as
definitions first (the embedding of the source), then theorems.
-/

namespace AgentCore

/-! ## Definitions: text utilities (`util/mod.rs`) -/

/-- Total UTF-8 byte length of a string modelled as a list of characters
(Rust `str::len`). -/
def utf8Len (s : List Char) : Nat :=
  (s.map Char.utf8Size).sum

/-- The loop of `truncate_safe` (`util/mod.rs` lines 55-63): walk
`char_indices`, keeping in `byteCount` the byte index of the last character
start that was accepted, and break at the first character start index beyond
`maxBytes`.  `byteIdx` is the byte index of the character at the head of the
list. -/
def truncateSafeGo (maxBytes : Nat) : List Char → Nat → Nat → Nat
  | [], _, byteCount => byteCount
  | c :: cs, byteIdx, byteCount =>
    if byteCount + (byteIdx - byteCount) > maxBytes then byteCount
    else truncateSafeGo maxBytes cs (byteIdx + c.utf8Size) byteIdx

/-- The byte-indexed slice `&s[..n]`: the characters of `s` fitting entirely
within the first `n` bytes.  When `n` lies on a character boundary (the only
way the Rust code uses it) this is exactly the Rust byte slice. -/
def takeBytes : List Char → Nat → List Char
  | [], _ => []
  | c :: cs, n => if c.utf8Size ≤ n then c :: takeBytes cs (n - c.utf8Size) else []

/-- `truncate_safe` from `util/mod.rs` lines 50-66: return `s` whole when it
already fits in `maxBytes` bytes, otherwise slice at the last character
boundary not beyond `maxBytes`. -/
def truncate_safe (s : List Char) (maxBytes : Nat) : List Char :=
  if utf8Len s ≤ maxBytes then s
  else takeBytes s (truncateSafeGo maxBytes s 0 0)

/-! ## Definitions: environment expansion (`util/mod.rs` lines 32-48) -/

/-- One regex match of `\$\{env:([^\x7d]+)\}` (`util/mod.rs` line 37) at the
head of the character list: the list must start with the six characters of
the opening `$\x7benv:`, followed by the captured variable name (one or more
characters, none a closing brace) and the closing brace.  On success returns
the captured name and the remainder after the closing brace. -/
def matchPlaceholder (l : List Char) : Option (List Char × List Char) :=
  if ['$', '{', 'e', 'n', 'v', ':'].isPrefixOf l ∧
      ((l.drop 6).takeWhile (fun c => c ≠ '}')).length ≠ 0 ∧
      ((l.drop 6).takeWhile (fun c => c ≠ '}')).length < (l.drop 6).length then
    some ((l.drop 6).takeWhile (fun c => c ≠ '}'),
      (l.drop 6).drop (((l.drop 6).takeWhile (fun c => c ≠ '}')).length + 1))
  else none

/-- The replacement produced by the closure at `util/mod.rs` lines 40-45 for a
captured variable name: the looked-up value when the provider returns one, and
otherwise (provider error or undefined variable) the placeholder rewritten as
`$\x7bNAME\x7d` with the `env:` prefix dropped. -/
def envReplacement (envProvider : String → Except Unit (Option String))
    (varName : List Char) : List Char :=
  match envProvider (String.mk varName) with
  | .ok (some v) => v.toList
  | .ok none => '$' :: '{' :: (varName ++ ['}'])
  | .error _ => '$' :: '{' :: (varName ++ ['}'])

/-- `Regex::replace_all` of the placeholder pattern over one mapping value
(`util/mod.rs` lines 39-46): scan left to right, replacing each
non-overlapping leftmost match via `envReplacement` and leaving every other
character in place. -/
def expandEnvValue (envProvider : String → Except Unit (Option String)) :
    List Char → List Char
  | [] => []
  | c :: cs =>
    match h : matchPlaceholder (c :: cs) with
    | some (name, rest) => envReplacement envProvider name ++ expandEnvValue envProvider rest
    | none => c :: expandEnvValue envProvider cs
termination_by l => l.length
decreasing_by
  · unfold matchPlaceholder at h
    split at h
    · injection h with h'
      rw [Prod.mk.injEq] at h'
      obtain ⟨-, h2⟩ := h'
      subst h2
      simp only [List.length_drop, List.length_cons]
      omega
    · exact absurd h (by simp)
  · simp

/-- Whether a value contains at least one match of the placeholder regex. -/
def hasEnvPlaceholder : List Char → Bool
  | [] => false
  | c :: cs => (matchPlaceholder (c :: cs)).isSome || hasEnvPlaceholder cs

/-- `expand_env_vars_impl` (`util/mod.rs` lines 32-48) with the map modelled
as an association list: `iter_mut` rewrites every value in place through the
regex replacement and leaves every key untouched. -/
def expand_env_vars_impl (envProvider : String → Except Unit (Option String))
    (envVars : List (String × List Char)) : List (String × List Char) :=
  envVars.map (fun kv => (kv.1, expandEnvValue envProvider kv.2))

/-! ## Definitions: execution output and error model (`tools/mod.rs`) -/

/-- Modelled from the spec: `ImageBlock` from `agent_loop::types` (declared
outside `src/`) — an image payload carrying a format and a byte source.  Only
its presence as an output item matters to the embedded claims. -/
structure ImageBlock where
  format : String
  source : List Nat
deriving DecidableEq

/-- `ToolExecutionOutputItem` (`tools/mod.rs` lines 343-348).  The `Json`
payload (`serde_json::Value`, declared outside `src/`) is abstracted to a
string rendering; no claim inspects it. -/
inductive ToolExecutionOutputItem where
  | Text (s : String)
  | Json (v : String)
  | Image (block : ImageBlock)
deriving DecidableEq

/-- `ToolExecutionOutput` (`tools/mod.rs` lines 322-325): an ordered sequence
of output items. -/
structure ToolExecutionOutput where
  items : List ToolExecutionOutputItem
deriving DecidableEq

/-- `ToolExecutionOutput::new` (`tools/mod.rs` lines 338-340). -/
def ToolExecutionOutput.new (items : List ToolExecutionOutputItem) : ToolExecutionOutput :=
  ⟨items⟩

/-- `Default for ToolExecutionOutput` (`tools/mod.rs` lines 327-335): a single
empty `Text` item. -/
def ToolExecutionOutput.defaultOutput : ToolExecutionOutput :=
  ⟨[ToolExecutionOutputItem.Text ""]⟩

/-- `ToolExecutionError` (`tools/mod.rs` lines 362-370).  The attached OS
error (`std::io::Error`) is abstracted to its message string. -/
inductive ToolExecutionError where
  | Io (context : String) (source : Option String)
  | Custom (msg : String)
deriving DecidableEq

/-- `ToolExecutionResult` (`tools/mod.rs` line 320). -/
def ToolExecutionResult := Except ToolExecutionError ToolExecutionOutput

/-! ## Definitions: `ExecuteCmd` (`execute_cmd_windows.rs`) -/

/-- The completed subprocess as observed by `ExecuteCmd::execute`: lossily
decoded stdout and stderr and the exit code (`none` when the process was
terminated by a signal, making `status.code()` return `None`). -/
structure CmdOutput where
  stdout : String
  stderr : String
  code : Option Int

/-- `ExecuteCmd::execute` (`execute_cmd_windows.rs` lines 99-141) from the
point where the subprocess has completed: assembles the result text from the
captured output and always succeeds.  The only error path of the source
function (`failed to execute command`) happens before any completion exists,
so it is outside this function's domain. -/
def ExecuteCmd.processOutput (output : CmdOutput) : Except ToolExecutionError ToolExecutionOutput :=
  let exitCode : Int := output.code.getD (-1)
  let result := ""
  let result := if output.stdout ≠ "" then result ++ output.stdout else result
  let result :=
    if output.stderr ≠ "" then
      (if result ≠ "" then result ++ "\n" else result) ++ output.stderr
    else result
  let result := if result = "" then "Command exited with code " ++ toString exitCode else result
  .ok (ToolExecutionOutput.new [ToolExecutionOutputItem.Text result])

/-! ## Definitions: `FsWrite` (`fs_write.rs`) -/

/-- Prepend a character to the first segment of a segment list (used to build
line and split decompositions front to back). -/
def consHead (c : Char) : List (List Char) → List (List Char)
  | [] => [[c]]
  | s :: ss => (c :: s) :: ss

/-- `str::match_indices` of `old` over the haystack starting at position `i`
(`fs_write.rs` line 226): the start positions of the leftmost non-overlapping
matches.  Positions are counted in characters where the source counts bytes;
only the number of matches is consumed by the source.  An empty pattern
matches at every character boundary including the end of the string,
advancing one character per match (Rust `Pattern` semantics for the empty
string). -/
def matchIndicesFrom (old : List Char) : List Char → Nat → List Nat
  | [], i => if old.isEmpty then [i] else []
  | c :: cs, i =>
    if old.isPrefixOf (c :: cs) then
      if he : old.isEmpty then i :: matchIndicesFrom old cs (i + 1)
      else i :: matchIndicesFrom old ((c :: cs).drop old.length) (i + old.length)
    else matchIndicesFrom old cs (i + 1)
termination_by l _ => l.length
decreasing_by
  · simp
  · have hp : 0 < old.length := by
      cases old with
      | nil => simp at he
      | cons _ _ => simp
    simp only [List.length_drop, List.length_cons]
    omega
  · simp

/-- `str::replacen` (`fs_write.rs` line 235): replace the first `n` leftmost
non-overlapping matches of `old` by `new`. -/
def replacenList (old new : List Char) : List Char → Nat → List Char
  | hay, 0 => hay
  | [], _ + 1 => if old.isEmpty then new else []
  | c :: cs, n + 1 =>
    if old.isPrefixOf (c :: cs) then
      if he : old.isEmpty then new ++ c :: replacenList old new cs n
      else new ++ replacenList old new ((c :: cs).drop old.length) n
    else c :: replacenList old new cs (n + 1)
termination_by hay _ => hay.length
decreasing_by
  · simp
  · have hp : 0 < old.length := by
      cases old with
      | nil => simp at he
      | cons _ _ => simp
    simp only [List.length_drop, List.length_cons]
    omega
  · simp

/-- `str::replace` (`fs_write.rs` line 246): replace every leftmost
non-overlapping match of `old` by `new`. -/
def replaceAllList (old new : List Char) : List Char → List Char
  | [] => if old.isEmpty then new else []
  | c :: cs =>
    if old.isPrefixOf (c :: cs) then
      if he : old.isEmpty then new ++ c :: replaceAllList old new cs
      else new ++ replaceAllList old new ((c :: cs).drop old.length)
    else c :: replaceAllList old new cs
termination_by hay => hay.length
decreasing_by
  · simp
  · have hp : 0 < old.length := by
      cases old with
      | nil => simp at he
      | cons _ _ => simp
    simp only [List.length_drop, List.length_cons]
    omega
  · simp

/-- The decomposition of the haystack at the leftmost non-overlapping matches
of `old` (the segments of Rust `str::split`): the haystack is the interleaving
of the returned segments with `old`, and full replacement is the interleaving
with the new string.  Used to state what "all occurrences are replaced"
means. -/
def splitOnList (old : List Char) : List Char → List (List Char)
  | [] => if old.isEmpty then [[], []] else [[]]
  | c :: cs =>
    if old.isPrefixOf (c :: cs) then
      if he : old.isEmpty then [] :: consHead c (splitOnList old cs)
      else [] :: splitOnList old ((c :: cs).drop old.length)
    else consHead c (splitOnList old cs)
termination_by hay => hay.length
decreasing_by
  · simp
  · have hp : 0 < old.length := by
      cases old with
      | nil => simp at he
      | cons _ _ => simp
    simp only [List.length_drop, List.length_cons]
    omega
  · simp

/-- A file system snapshot mapping (canonical) paths to text contents.  Path
canonicalization (`canonicalize_path_sys`, `util/path` — outside `src/`) is
abstracted away: tool paths are taken as already canonical. -/
def FileSystem := String → Option (List Char)

/-- Write a file into the snapshot, overwriting any previous content. -/
def FileSystem.write (fs : FileSystem) (path : String) (content : List Char) : FileSystem :=
  fun q => if q = path then some content else fs q

/-- `StrReplace` (`fs_write.rs` lines 208-216). -/
structure StrReplace where
  path : String
  old_str : List Char
  new_str : List Char
  replace_all : Bool

/-- The content transformation of `StrReplace::execute` (`fs_write.rs` lines
226-251): count the matches of `old_str`, then error on zero matches,
replace the single match, or — only under `replace_all` — replace every
match, erroring otherwise. -/
def StrReplace.replaceResult (t : StrReplace) (file : List Char) :
    Except ToolExecutionError (List Char) :=
  if (matchIndicesFrom t.old_str file 0).length = 0 then
    .error (.Custom ("no occurrences of \"" ++ String.mk t.old_str ++ "\" were found"))
  else if (matchIndicesFrom t.old_str file 0).length = 1 then
    .ok (replacenList t.old_str t.new_str file 1)
  else if ¬ t.replace_all then
    .error (.Custom (toString (matchIndicesFrom t.old_str file 0).length ++
      " occurrences of old_str were found when only 1 is expected"))
  else .ok (replaceAllList t.old_str t.new_str file)

/-- `StrReplace::execute` (`fs_write.rs` lines 218-254) against a snapshot:
read the file, transform the content, write back only on success. -/
def StrReplace.executeFs (t : StrReplace) (fs : FileSystem) :
    Except ToolExecutionError Unit × FileSystem :=
  match fs t.path with
  | none => (.error (.Io ("failed to read " ++ t.path) none), fs)
  | some file =>
    match t.replaceResult file with
    | .error e => (.error e, fs)
    | .ok newFile => (.ok (), fs.write t.path newFile)

/-- Platform line terminator (`fs_write.rs` lines 84-88), in the Unix
configuration of the source. -/
def NEWLINE : List Char := ['\n']

/-- `syntect::util::LinesWithEndings` (`fs_write.rs` line 280): the lines of
the text, each including its terminating newline character; a final segment
without a newline is yielded as-is. -/
def linesWithEndings : List Char → List (List Char)
  | [] => []
  | c :: cs =>
    if c = '\n' then ['\n'] :: linesWithEndings cs
    else consHead c (linesWithEndings cs)

/-- Strip one trailing newline, then one trailing carriage return: the
per-line post-processing of Rust `str::lines`. -/
def stripLineEnd (l : List Char) : List Char :=
  let l1 := if l.getLast? = some '\n' then l.dropLast else l
  if l1.getLast? = some '\r' then l1.dropLast else l1

/-- Rust `str::lines` (`fs_write.rs` line 273): the newline-terminated
segments with terminators stripped, a final unterminated segment included.
Only the line count is consumed by the source. -/
def rustLines (s : List Char) : List (List Char) :=
  (linesWithEndings s).map stripLineEnd

/-- `String::insert_str` at a boundary: splice `t` into `s` at position `i`
(in characters; the source position is the byte offset of the same
boundary). -/
def insertStrAt (s : List Char) (i : Nat) (t : List Char) : List Char :=
  s.take i ++ t ++ s.drop i

/-- `Insert` (`fs_write.rs` lines 257-263).  `insert_line` is `u32` in the
source, hence never negative. -/
structure Insert where
  path : String
  content : List Char
  insert_line : Option Nat

/-- The content transformation of `Insert::execute` (`fs_write.rs` lines
265-301): with an explicit line, clamp it to `[0, line_count]` (for a `u32`
the clamp is `min`), compute the offset after that many complete
lines-with-endings, force the content to end with the platform terminator and
splice it there; with no line, append the content after ensuring the file
ends with the terminator. -/
def Insert.newContent (t : Insert) (file : List Char) : List Char :=
  match t.insert_line with
  | some insertLine =>
    let il := min insertLine (rustLines file).length
    let i := ((linesWithEndings file).take il).foldl (fun acc line => acc + line.length) 0
    let content := if NEWLINE.isSuffixOf t.content then t.content else t.content ++ NEWLINE
    insertStrAt file i content
  | none =>
    (if NEWLINE.isSuffixOf file then file else file ++ NEWLINE) ++ t.content

/-- `Insert::execute` (`fs_write.rs` lines 265-301) against a snapshot. -/
def Insert.executeFs (t : Insert) (fs : FileSystem) :
    Except ToolExecutionError Unit × FileSystem :=
  match fs t.path with
  | none => (.error (.Io ("failed to read " ++ t.path) none), fs)
  | some file => (.ok (), fs.write t.path (t.newContent file))

/-- `FileCreate` (`fs_write.rs` lines 182-186). -/
structure FileCreate where
  path : String
  content : List Char

/-- `FileCreate::execute` (`fs_write.rs` lines 188-206): missing parent
directories are created (directories are not represented in the snapshot) and
the file is written, overwriting any previous content. -/
def FileCreate.executeFs (t : FileCreate) (fs : FileSystem) :
    Except ToolExecutionError Unit × FileSystem :=
  (.ok (), fs.write t.path t.content)

/-- `FileLineTracker` (`fs_write.rs` lines 318-333). -/
structure FileLineTracker where
  prev_fswrite_lines : Nat
  before_fswrite_lines : Nat
  after_fswrite_lines : Nat
  lines_added_by_agent : Nat
  lines_removed_by_agent : Nat
  is_first_write : Bool
deriving DecidableEq

/-- `Default for FileLineTracker` (`fs_write.rs` lines 335-346). -/
def FileLineTracker.defaultTracker : FileLineTracker :=
  ⟨0, 0, 0, 0, 0, true⟩

/-- `FileLineTracker::lines_by_user` (`fs_write.rs` lines 349-351). -/
def FileLineTracker.lines_by_user (t : FileLineTracker) : Int :=
  (t.before_fswrite_lines : Int) - (t.prev_fswrite_lines : Int)

/-- `FileLineTracker::lines_by_agent` (`fs_write.rs` lines 353-355). -/
def FileLineTracker.lines_by_agent (t : FileLineTracker) : Int :=
  ((t.lines_added_by_agent + t.lines_removed_by_agent : Nat) : Int)

/-- `FsWriteState` (`fs_write.rs` lines 310-314). -/
structure FsWriteState where
  line_tracker : FileLineTracker
deriving DecidableEq

/-- `FsWrite` (`fs_write.rs` lines 104-111). -/
inductive FsWrite where
  | Create (v : FileCreate)
  | StrReplace (v : AgentCore.StrReplace)
  | Insert (v : AgentCore.Insert)

/-- `FsWrite::execute` (`fs_write.rs` lines 165-179): dispatch to the active
variant and return the default output on success.  The `_state:
Option<&mut FsWriteState>` parameter is received but neither read nor written
(note the underscore binding at line 167); the model therefore returns it
exactly as passed. -/
def FsWrite.execute (tool : FsWrite) (state : Option FsWriteState) (fs : FileSystem) :
    Except ToolExecutionError ToolExecutionOutput × Option FsWriteState × FileSystem :=
  match tool with
  | .Create v =>
    match v.executeFs fs with
    | (.ok _, fs') => (.ok ToolExecutionOutput.defaultOutput, state, fs')
    | (.error e, fs') => (.error e, state, fs')
  | .StrReplace v =>
    match v.executeFs fs with
    | (.ok _, fs') => (.ok ToolExecutionOutput.defaultOutput, state, fs')
    | (.error e, fs') => (.error e, state, fs')
  | .Insert v =>
    match v.executeFs fs with
    | (.ok _, fs') => (.ok ToolExecutionOutput.defaultOutput, state, fs')
    | (.error e, fs') => (.error e, state, fs')

/-! ## Definitions: `ImageRead` (`image_read.rs`) -/

/-- `ImageRead` (`image_read.rs` lines 88-92). -/
structure ImageRead where
  paths : List String

/-- `ImageRead::processed_paths` (`image_read.rs` lines 152-160):
canonicalize and platform-normalize every path in order, failing on the
first canonicalization error.  Canonicalization (`canonicalize_path`,
`util/path` — outside `src/`) composed with the macOS screenshot fix-up
(`pre_process_image_path`) is abstracted into the `processPath`
parameter. -/
def ImageRead.processedPaths (processPath : String → Except String String)
    (t : ImageRead) : Except String (List String) :=
  t.paths.mapM processPath

/-- `ImageRead::execute` (`image_read.rs` lines 134-150): read every
processed path independently (`read_image`, abstracted as `readImage`),
collecting successful image items in order and error messages in order; when
any path failed the whole call errors with the newline-joined messages,
otherwise it returns exactly the collected items.  An empty `paths` list
therefore yields `Ok` with an empty item sequence. -/
def ImageRead.execute (processPath : String → Except String String)
    (readImage : String → Except String ImageBlock) (t : ImageRead) :
    Except ToolExecutionError ToolExecutionOutput :=
  match t.processedPaths processPath with
  | .error e => .error (.Custom e)
  | .ok paths =>
    let acc := paths.foldl
      (fun (acc : List ToolExecutionOutputItem × List String) path =>
        match readImage path with
        | .ok block => (acc.1 ++ [ToolExecutionOutputItem.Image block], acc.2)
        | .error err => (acc.1, acc.2 ++ [err]))
      ([], [])
    if acc.2 ≠ [] then .error (.Custom (String.intercalate "\n" acc.2))
    else .ok (ToolExecutionOutput.new acc.1)

/-! ## Definitions: bounded file read (`util/mod.rs` lines 95-135) -/

/-- A UTF-8 continuation byte (`0x80..=0xBF`). -/
def utf8Cont (b : Nat) : Bool :=
  decide (0x80 ≤ b ∧ b ≤ 0xBF)

/-- Accepted range of the first continuation byte after a three-byte lead:
`0xE0` requires `0xA0..=0xBF` (no overlongs) and `0xED` requires
`0x80..=0x9F` (no surrogates). -/
def utf8Cont3First (b b1 : Nat) : Bool :=
  if b = 0xE0 then decide (0xA0 ≤ b1 ∧ b1 ≤ 0xBF)
  else if b = 0xED then decide (0x80 ≤ b1 ∧ b1 ≤ 0x9F)
  else utf8Cont b1

/-- Accepted range of the first continuation byte after a four-byte lead:
`0xF0` requires `0x90..=0xBF` (no overlongs) and `0xF4` requires
`0x80..=0x8F` (≤ U+10FFFF). -/
def utf8Cont4First (b b1 : Nat) : Bool :=
  if b = 0xF0 then decide (0x90 ≤ b1 ∧ b1 ≤ 0xBF)
  else if b = 0xF4 then decide (0x80 ≤ b1 ∧ b1 ≤ 0x8F)
  else utf8Cont b1

/-- `bstr::ByteSlice::to_str_lossy` (`util/mod.rs` line 117): UTF-8 decoding
with each maximal invalid subpart replaced by one U+FFFD (the WHATWG
"substitution of maximal subparts" policy bstr implements).  Bytes are `Nat`;
values above 255 cannot occur in real input and fall to the invalid case. -/
def utf8Lossy : List Nat → List Char
  | [] => []
  | b :: bs =>
    if b ≤ 0x7F then Char.ofNat b :: utf8Lossy bs
    else if 0xC2 ≤ b ∧ b ≤ 0xDF then
      match bs with
      | [] => ['�']
      | b1 :: bs1 =>
        if utf8Cont b1 then
          Char.ofNat ((b - 0xC0) * 0x40 + (b1 - 0x80)) :: utf8Lossy bs1
        else '�' :: utf8Lossy (b1 :: bs1)
    else if 0xE0 ≤ b ∧ b ≤ 0xEF then
      match bs with
      | [] => ['�']
      | b1 :: bs1 =>
        if utf8Cont3First b b1 then
          match bs1 with
          | [] => ['�']
          | b2 :: bs2 =>
            if utf8Cont b2 then
              Char.ofNat ((b - 0xE0) * 0x1000 + (b1 - 0x80) * 0x40 + (b2 - 0x80)) ::
                utf8Lossy bs2
            else '�' :: utf8Lossy (b2 :: bs2)
        else '�' :: utf8Lossy (b1 :: bs1)
    else if 0xF0 ≤ b ∧ b ≤ 0xF4 then
      match bs with
      | [] => ['�']
      | b1 :: bs1 =>
        if utf8Cont4First b b1 then
          match bs1 with
          | [] => ['�']
          | b2 :: bs2 =>
            if utf8Cont b2 then
              match bs2 with
              | [] => ['�']
              | b3 :: bs3 =>
                if utf8Cont b3 then
                  Char.ofNat ((b - 0xF0) * 0x40000 + (b1 - 0x80) * 0x1000 +
                    (b2 - 0x80) * 0x40 + (b3 - 0x80)) :: utf8Lossy bs3
                else '�' :: utf8Lossy (b3 :: bs3)
            else '�' :: utf8Lossy (b2 :: bs2)
        else '�' :: utf8Lossy (b1 :: bs1)
    else '�' :: utf8Lossy bs

/-- Whether byte offset `i` is a character boundary of the string
(`str::is_char_boundary`, the precondition `String::replace_range` panics
without). -/
def isCharBoundary : List Char → Nat → Bool
  | _, 0 => true
  | [], _ + 1 => false
  | c :: cs, i + 1 =>
    if i + 1 < c.utf8Size then false else isCharBoundary cs (i + 1 - c.utf8Size)

/-- `read_file_with_max_limit` (`util/mod.rs` lines 95-135) on a file
modelled as its raw bytes (`md.len()` is the byte count): open and read at
most `maxFileLength` bytes, decode them lossily, and — when the file was
longer — splice the suffix over the tail of the decoded content via
`String::replace_range`, whose start offset
`content.len().saturating_sub(suffix.len())` must land on a character
boundary or the call panics (`none`). -/
def read_file_with_max_limit (fileBytes : List Nat) (maxFileLength : Nat)
    (suffix : List Char) : Option (List Char × Nat) :=
  let content := utf8Lossy (fileBytes.take maxFileLength)
  if fileBytes.length > maxFileLength ∧ utf8Len suffix > maxFileLength then
    some ([], fileBytes.length)
  else
    let truncatedAmount :=
      if fileBytes.length > maxFileLength then
        fileBytes.length - maxFileLength + utf8Len suffix
      else 0
    if truncatedAmount = 0 then some (content, 0)
    else
      let start := utf8Len content - utf8Len suffix
      if isCharBoundary content start then
        some (takeBytes content start ++ suffix, truncatedAmount)
      else none

/-! ## Definitions: `Ls` (`ls.rs`) -/

/-- `IGNORE_PATTERNS` (`ls.rs` line 76): directory names never descended
into. -/
def IGNORE_PATTERNS : List String :=
  ["node_modules", "bin", "build", "dist", "out", ".cache", ".git"]

/-- `MAX_LS_ENTRIES` (`ls.rs` line 79): the global cap on listing lines. -/
def MAX_LS_ENTRIES : Nat := 1000

/-- `MAX_ENTRY_COUNT_PER_DIR` (`ls.rs` line 82): the per-directory entry
threshold. -/
def MAX_ENTRY_COUNT_PER_DIR : Nat := 10000

/-- A directory entry as traversed by `Ls::execute` (`ls.rs` `Entry`): path,
last-modified seconds since the epoch, whether it is a directory, and — when
it is — its own entries in reader order.  The remaining `Metadata` fields
(permissions, owner, size) feed only the platform-dependent columns of the
output line and are not modelled. -/
inductive FsEntry where
  | mk (path : String) (lastModified : Nat) (isDir : Bool) (children : List FsEntry)

/-- Path of the entry. -/
def FsEntry.path : FsEntry → String
  | .mk p _ _ _ => p

/-- Modification time of the entry (`Entry::new`, seconds since epoch). -/
def FsEntry.lastModified : FsEntry → Nat
  | .mk _ m _ _ => m

/-- Whether the entry is a directory (`Metadata::is_dir`). -/
def FsEntry.isDir : FsEntry → Bool
  | .mk _ _ d _ => d

/-- Entries of the entry when it is a directory, in reader order. -/
def FsEntry.children : FsEntry → List FsEntry
  | .mk _ _ _ cs => cs

/-- `Entry::to_long_format` (`ls.rs` lines 279-308): one fixed-column line
per entry — the type flag, the platform metadata columns (not modelled), the
modification time and the path. -/
def FsEntry.toLongFormat (e : FsEntry) : String :=
  (if e.isDir then "d" else "-") ++ " " ++ toString e.lastModified ++ " " ++ e.path

/-- Total node count of a forest (termination measure of the traversal). -/
def entryListSize : List FsEntry → Nat
  | [] => 0
  | FsEntry.mk _ _ _ cs :: es => 1 + entryListSize cs + entryListSize es

/-- Total node count of the children of a forest's roots. -/
def childrenSizeList : List FsEntry → Nat
  | [] => 0
  | e :: es => entryListSize e.children + childrenSizeList es

/-- Total node count of the directories queued for traversal. -/
def queueMeasure (q : List (List FsEntry × String × Nat)) : Nat :=
  (q.map (fun item => entryListSize item.1)).sum

/-- `Ls` (`ls.rs` lines 98-103). -/
structure Ls where
  path : String
  depth : Option Nat
  ignore : Option (List String)

/-- `Ls::depth` (`ls.rs` lines 231-233): the requested depth, defaulting
to 0. -/
def Ls.depthValue (t : Ls) : Nat := t.depth.getD 0

/-- `Ls::matches_ignore_patterns` (`ls.rs` lines 217-223); glob matching
(`matches_any_pattern`, `util/glob` — outside `src/`) is abstracted into the
`globMatch` parameter. -/
def Ls.matchesIgnorePatterns (globMatch : List String → String → Bool) (t : Ls)
    (path : String) : Bool :=
  match t.ignore with
  | some patterns => globMatch patterns path
  | none => false

/-- The truncation notice pushed onto the prefix lines (`ls.rs` lines
188-193): it names the directory, its total (kept) entry count and marks
with "+" that the per-directory threshold was exceeded. -/
def truncationNotice (dirPath : String) (n : Nat) (exceeded : Bool) : String :=
  "Directory at " ++ dirPath ++ " was truncated (has total " ++ toString n ++
    (if exceeded then "+" else "") ++ " entries)"

/-- The entry loop of `Ls::execute` (`ls.rs` lines 183-206) over the sorted
entries of one directory: push the formatted line; if the global cap is now
exceeded, push the truncation notice and break; otherwise enqueue the entry
as a directory to search unless it is not a directory or its path matches
the built-in ignore set. -/
def pushLoop (globMatch : List String → String → Bool) (dirPath : String)
    (depth : Nat) (n : Nat) (exceeded : Bool) :
    List FsEntry → List String → List String → List (List FsEntry × String × Nat) →
    List String × List String × List (List FsEntry × String × Nat)
  | [], res, pfx, dirs => (res, pfx, dirs)
  | e :: rest, res, pfx, dirs =>
    let res' := res ++ [e.toLongFormat]
    if res'.length > MAX_LS_ENTRIES then
      (res', pfx ++ [truncationNotice dirPath n exceeded], dirs)
    else
      let dirs' :=
        if e.isDir && ! globMatch IGNORE_PATTERNS e.path then
          dirs ++ [(e.children, e.path, depth + 1)]
        else dirs
      pushLoop globMatch dirPath depth n exceeded rest res' pfx dirs'

/-- The breadth-first loop of `Ls::execute` (`ls.rs` lines 145-207): pop a
(directory, depth) pair — breaking out of the whole loop beyond `maxDepth` —
drop the entries matching the caller ignore patterns, record whether the
per-directory threshold was exceeded (`i` counts every kept entry; reading
never stops early), sort by modification time ascending (stably) and
reverse, then run the entry loop and continue with the extended queue. -/
def lsLoop (globMatch : List String → String → Bool) (t : Ls) (maxDepth : Nat) :
    List (List FsEntry × String × Nat) → List String → List String →
    List String × List String
  | [], pfx, res => (pfx, res)
  | (entries, dirPath, depth) :: queue, pfx, res =>
    if depth > maxDepth then (pfx, res)
    else
      let kept := entries.filter
        (fun e => ! t.matchesIgnorePatterns globMatch e.path)
      let exceeded := decide (kept.length > MAX_ENTRY_COUNT_PER_DIR)
      let sorted :=
        (kept.mergeSort (fun a b => decide (a.lastModified ≤ b.lastModified))).reverse
      let step := pushLoop globMatch dirPath depth kept.length exceeded sorted res pfx []
      lsLoop globMatch t maxDepth (queue ++ step.2.2) step.2.1 step.1
termination_by q _ _ => (queueMeasure q, q.length)
decreasing_by
  · have qm_append : ∀ (a b : List (List FsEntry × String × Nat)),
        queueMeasure (a ++ b) = queueMeasure a + queueMeasure b := by
      intro a b
      simp [queueMeasure]
    have els_split : ∀ (es : List FsEntry),
        entryListSize es = es.length + childrenSizeList es := by
      intro es
      induction es with
      | nil => simp [entryListSize, childrenSizeList]
      | cons e es ih =>
        cases e with
        | mk p m d cs =>
          simp only [entryListSize, childrenSizeList, List.length_cons,
            FsEntry.children, ih]
          omega
    have push_bound : ∀ (dp : String) (d n : Nat) (ex : Bool) (es : List FsEntry)
        (res pfx : List String) (dirs : List (List FsEntry × String × Nat)),
        queueMeasure (pushLoop globMatch dp d n ex es res pfx dirs).2.2 ≤
          queueMeasure dirs + childrenSizeList es := by
      intro dp d n ex es
      induction es with
      | nil =>
        intro res pfx dirs
        simp [pushLoop, childrenSizeList]
      | cons e rest ih =>
        intro res pfx dirs
        simp only [pushLoop]
        split
        · simp only [childrenSizeList]
          omega
        · have hstep := ih (res ++ [e.toLongFormat]) pfx
            (if e.isDir && ! globMatch IGNORE_PATTERNS e.path then
              dirs ++ [(e.children, e.path, d + 1)]
            else dirs)
          have hdirs : queueMeasure
              (if e.isDir && ! globMatch IGNORE_PATTERNS e.path then
                dirs ++ [(e.children, e.path, d + 1)]
              else dirs) ≤ queueMeasure dirs + entryListSize e.children := by
            split
            · rw [qm_append]
              simp [queueMeasure]
            · omega
          simp only [childrenSizeList]
          omega
    have csl_as_sum : ∀ (l : List FsEntry),
        childrenSizeList l = (l.map (fun e => entryListSize e.children)).sum := by
      intro l
      induction l with
      | nil => simp [childrenSizeList]
      | cons e es ih => simp [childrenSizeList, ih]
    have perm_csl : ∀ (l : List FsEntry) (le : FsEntry → FsEntry → Bool),
        childrenSizeList ((l.mergeSort le).reverse) = childrenSizeList l := by
      intro l le
      rw [csl_as_sum, csl_as_sum]
      exact List.Perm.sum_eq (List.Perm.map _
        ((l.mergeSort le).reverse_perm.trans (l.mergeSort_perm le)))
    have filter_csl : ∀ (l : List FsEntry) (p : FsEntry → Bool),
        childrenSizeList (l.filter p) ≤ childrenSizeList l := by
      intro l p
      induction l with
      | nil => simp [childrenSizeList]
      | cons e es ih =>
        rw [List.filter_cons]
        split
        · simp only [childrenSizeList]
          omega
        · simp only [childrenSizeList]
          omega
    show Prod.Lex (fun a₁ a₂ => a₁ < a₂) (fun a₁ a₂ => a₁ < a₂)
      (queueMeasure (queue ++
          (pushLoop globMatch dirPath depth kept.length exceeded sorted res pfx []).2.2),
        (queue ++
          (pushLoop globMatch dirPath depth kept.length exceeded sorted res pfx []).2.2).length)
      (queueMeasure ((entries, dirPath, depth) :: queue),
        ((entries, dirPath, depth) :: queue).length)
    by_cases hent : entries = []
    · subst hent
      have hk : kept = ([] : List FsEntry) := rfl
      have hs : sorted = ([] : List FsEntry) := by
        show (kept.mergeSort fun a b => decide (a.lastModified ≤ b.lastModified)).reverse = []
        rw [hk]
        simp
      have hp2 : (pushLoop globMatch dirPath depth kept.length exceeded sorted
          res pfx []).2.2 = [] := by
        rw [hs]
        rfl
      rw [hp2, List.append_nil]
      have hq : queueMeasure ((([] : List FsEntry), dirPath, depth) :: queue) =
          queueMeasure queue := by
        simp [queueMeasure, entryListSize]
      rw [hq]
      apply Prod.Lex.right
      simp
    · apply Prod.Lex.left
      have h0 : queueMeasure ([] : List (List FsEntry × String × Nat)) = 0 := rfl
      have hb := push_bound dirPath depth kept.length exceeded sorted res pfx []
      have h2 : childrenSizeList sorted = childrenSizeList kept := by
        show childrenSizeList
          ((kept.mergeSort fun a b => decide (a.lastModified ≤ b.lastModified)).reverse) =
          childrenSizeList kept
        exact perm_csl kept _
      have h3 : childrenSizeList kept ≤ childrenSizeList entries := by
        show childrenSizeList
          (List.filter (fun e => ! t.matchesIgnorePatterns globMatch e.path) entries) ≤
          childrenSizeList entries
        exact filter_csl entries _
      have h4 := els_split entries
      have h5 : 1 ≤ entries.length := by
        cases entries with
        | nil => exact absurd rfl hent
        | cons _ _ => simp
      have h6 := qm_append queue
        (pushLoop globMatch dirPath depth kept.length exceeded sorted res pfx []).2.2
      have h7 : queueMeasure ((entries, dirPath, depth) :: queue) =
          entryListSize entries + queueMeasure queue := by
        simp [queueMeasure]
      omega

/-- `Ls::execute` (`ls.rs` lines 129-215): canonicalize the root (abstracted
away — the tool path is taken as canonical), emit the Unix user id prefix
line, traverse from the root at depth 0, and join prefix lines and result
lines — the prefix before the listing, not appended — into one text item. -/
def Ls.executeModel (globMatch : List String → String → Bool) (userId : Nat)
    (t : Ls) (rootEntries : List FsEntry) : ToolExecutionOutput :=
  let pfx0 := ["User id: " ++ toString userId]
  let r := lsLoop globMatch t t.depthValue [(rootEntries, t.path, 0)] pfx0 []
  ToolExecutionOutput.new [ToolExecutionOutputItem.Text
    (String.intercalate "\n" r.1 ++ "\n" ++ String.intercalate "\n" r.2)]

/-! ## Theorems: text utilities and environment expansion -/


theorem takeBytes_isPrefix : ∀ (s : List Char) (n : Nat), takeBytes s n <+: s
  | [], _ => List.nil_prefix
  | c :: cs, n => by
    unfold takeBytes
    split
    · obtain ⟨t, ht⟩ := takeBytes_isPrefix cs (n - c.utf8Size)
      exact ⟨t, by simp [ht]⟩
    · exact List.nil_prefix

theorem utf8Len_takeBytes_le : ∀ (s : List Char) (n : Nat), utf8Len (takeBytes s n) ≤ n
  | [], n => by simp [takeBytes, utf8Len]
  | c :: cs, n => by
    unfold takeBytes
    split
    · have ih := utf8Len_takeBytes_le cs (n - c.utf8Size)
      simp only [utf8Len, List.map_cons, List.sum_cons] at *
      omega
    · simp [utf8Len]

theorem truncateSafeGo_le (maxBytes : Nat) :
    ∀ (s : List Char) (byteIdx byteCount : Nat), byteCount ≤ maxBytes →
      truncateSafeGo maxBytes s byteIdx byteCount ≤ maxBytes
  | [], _, _, h => h
  | c :: cs, byteIdx, byteCount, h => by
    unfold truncateSafeGo
    split
    · exact h
    · next hc =>
      exact truncateSafeGo_le maxBytes cs (byteIdx + c.utf8Size) byteIdx (by omega)

/-- Claim C6: for every UTF-8 string `s` and byte limit `n`, `truncate_safe s n`
is a prefix of `s` of byte length at most `n`; in the `List Char` model being a
character-list prefix is exactly cutting at a character boundary, so the cut
never splits a multi-byte character. -/
theorem C6_truncate_safe_char_boundary (s : List Char) (n : Nat) :
    truncate_safe s n <+: s ∧ utf8Len (truncate_safe s n) ≤ n := by
  unfold truncate_safe
  split
  · exact ⟨List.prefix_rfl, by assumption⟩
  · refine ⟨takeBytes_isPrefix s _, ?_⟩
    exact le_trans (utf8Len_takeBytes_le s _) (truncateSafeGo_le n s 0 0 (Nat.zero_le n))

theorem matchPlaceholder_head {c : Char} {cs : List Char} {p : List Char × List Char}
    (h : matchPlaceholder (c :: cs) = some p) : c = '$' := by
  unfold matchPlaceholder at h
  split at h
  · next hcond =>
    obtain ⟨t, ht⟩ := List.isPrefixOf_iff_prefix.mp hcond.1
    simp only [List.cons_append] at ht
    injection ht with h1 _
    exact h1.symm
  · exact absurd h (by simp)

theorem expandEnvValue_nil (E : String → Except Unit (Option String)) :
    expandEnvValue E [] = [] := by
  rw [expandEnvValue]

theorem expandEnvValue_cons_some (E : String → Except Unit (Option String))
    (c : Char) (cs name rest : List Char)
    (h : matchPlaceholder (c :: cs) = some (name, rest)) :
    expandEnvValue E (c :: cs) = envReplacement E name ++ expandEnvValue E rest := by
  rw [expandEnvValue]
  split
  · next name' rest' h' =>
    rw [h] at h'
    injection h' with h''
    rw [Prod.mk.injEq] at h''
    rw [h''.1, h''.2]
  · next h' =>
    rw [h'] at h
    exact absurd h (by simp)

theorem expandEnvValue_cons_none (E : String → Except Unit (Option String))
    (c : Char) (cs : List Char) (h : matchPlaceholder (c :: cs) = none) :
    expandEnvValue E (c :: cs) = c :: expandEnvValue E cs := by
  rw [expandEnvValue]
  split
  · next name' rest' h' =>
    rw [h] at h'
    exact absurd h' (by simp)
  · rfl

theorem expandEnvValue_no_placeholder (E : String → Except Unit (Option String)) :
    ∀ (v : List Char), hasEnvPlaceholder v = false → expandEnvValue E v = v := by
  intro v
  induction v with
  | nil => intro _; exact expandEnvValue_nil E
  | cons c cs ih =>
    intro h
    rw [hasEnvPlaceholder] at h
    cases hm : matchPlaceholder (c :: cs) with
    | some p =>
      rw [hm] at h
      simp at h
    | none =>
      rw [hm] at h
      simp only [Option.isSome_none, Bool.false_or] at h
      rw [expandEnvValue_cons_none E c cs hm, ih h]

theorem expandEnvValue_append_of_no_dollar (E : String → Except Unit (Option String)) :
    ∀ (pre t : List Char), '$' ∉ pre →
      expandEnvValue E (pre ++ t) = pre ++ expandEnvValue E t := by
  intro pre
  induction pre with
  | nil => intro t _; rfl
  | cons c cs ih =>
    intro t hd
    have hc : c ≠ '$' := fun hcc => hd (hcc ▸ List.mem_cons_self c cs)
    have hnone : matchPlaceholder (c :: (cs ++ t)) = none := by
      cases hm : matchPlaceholder (c :: (cs ++ t)) with
      | none => rfl
      | some p => exact absurd (matchPlaceholder_head hm) hc
    rw [List.cons_append, expandEnvValue_cons_none E _ _ hnone,
      ih t (fun hmem => hd (List.mem_cons_of_mem c hmem))]
    simp

theorem takeWhile_append_stop {p : Char → Bool} :
    ∀ (name : List Char) (post : List Char), (∀ c ∈ name, p c = true) → ∀ stop, p stop = false →
      (name ++ stop :: post).takeWhile p = name ∧
      (name ++ stop :: post).drop (name.length + 1) = post := by
  intro name
  induction name with
  | nil =>
    intro post _ stop hstop
    simp [List.takeWhile, hstop]
  | cons c cs ih =>
    intro post h stop hstop
    have hc : p c = true := h c (List.mem_cons_self c cs)
    have ihh := ih post (fun x hx => h x (List.mem_cons_of_mem c hx)) stop hstop
    constructor
    · simp only [List.cons_append, List.takeWhile_cons, hc, if_true]
      rw [ihh.1]
    · simpa [List.cons_append] using ihh.2

theorem matchPlaceholder_exact (name post : List Char) (hne : name ≠ [])
    (hnb : '}' ∉ name) :
    matchPlaceholder ('$' :: '{' :: 'e' :: 'n' :: 'v' :: ':' :: (name ++ '}' :: post)) =
      some (name, post) := by
  have hall : ∀ c ∈ name, (fun c => decide (c ≠ '}')) c = true := by
    intro c hc
    simp only [decide_eq_true_eq]
    exact fun hcc => hnb (hcc ▸ hc)
  have htw := takeWhile_append_stop name post hall '}' (by simp)
  have hdrop : (('$' :: '{' :: 'e' :: 'n' :: 'v' :: ':' :: (name ++ '}' :: post)).drop 6) =
      name ++ '}' :: post := rfl
  unfold matchPlaceholder
  rw [if_pos]
  · rw [hdrop, htw.1, htw.2]
  · refine ⟨by rw [ List.isPrefixOf_iff_prefix]; exact ⟨name ++ '}' :: post, rfl⟩, ?_, ?_⟩
    · rw [hdrop, htw.1]
      simpa [List.length_eq_zero] using hne
    · rw [hdrop, htw.1]
      simp only [List.length_append, List.length_cons]
      omega

/-- Claim C10: environment expansion substitutes a defined variable's value in
place of its placeholder, rewrites the placeholder of a failed or undefined
lookup to `$\x7bNAME\x7d` (the `env:` prefix dropped, not left unchanged),
leaves values without placeholders untouched and never alters mapping keys. -/
theorem C10_expand_env_vars (E : String → Except Unit (Option String))
    (envVars : List (String × List Char)) (v pre name post : List Char) :
    ((expand_env_vars_impl E envVars).map Prod.fst = envVars.map Prod.fst) ∧
    (hasEnvPlaceholder v = false → expandEnvValue E v = v) ∧
    ('$' ∉ pre → name ≠ [] → '}' ∉ name →
      expandEnvValue E (pre ++ '$' :: '{' :: 'e' :: 'n' :: 'v' :: ':' :: (name ++ '}' :: post)) =
        pre ++ envReplacement E name ++ expandEnvValue E post ∧
      (∀ val, E (String.mk name) = .ok (some val) → envReplacement E name = val.toList) ∧
      ((E (String.mk name) = .ok none ∨ ∃ e, E (String.mk name) = .error e) →
        envReplacement E name = '$' :: '{' :: (name ++ ['}']))) := by
  refine ⟨by simp [expand_env_vars_impl], expandEnvValue_no_placeholder E v, ?_⟩
  intro hpre hne hnb
  refine ⟨?_, ?_, ?_⟩
  · rw [expandEnvValue_append_of_no_dollar E pre _ hpre, List.append_assoc]
    congr 1
    exact expandEnvValue_cons_some E _ _ name post (matchPlaceholder_exact name post hne hnb)
  · intro val hval
    simp [envReplacement, hval]
  · intro hval
    rcases hval with h | ⟨e, h⟩ <;> simp [envReplacement, h]

/-- Witness for C10 at a concrete mapping value: a defined variable inside
`$\x7benv:NAME\x7d` is substituted by its value. -/
theorem C10_expand_env_vars_witness :
    expandEnvValue (fun n => if n = "NAME" then .ok (some "value") else .ok none)
        ("$\x7benv:NAME\x7d".toList) = "value".toList := by
  have h := (C10_expand_env_vars
    (fun n => if n = "NAME" then .ok (some "value") else .ok none)
    [] [] [] "NAME".toList []).2.2 (by simp) (by decide) (by decide)
  have h1 := h.1
  have h2 := h.2.1 "value" rfl
  simp only [List.nil_append] at h1
  have hl : ("$\x7benv:NAME\x7d".toList : List Char) =
      '$' :: '{' :: 'e' :: 'n' :: 'v' :: ':' :: ("NAME".toList ++ '}' :: []) := by decide
  rw [hl, h1, h2, expandEnvValue_nil]
  simp

/-! ## Theorems: `ExecuteCmd` -/

/-- Claim C8: once the subprocess completes, `ExecuteCmd` always returns
success regardless of the exit status, and when both captured streams are
empty the returned text reports the numeric exit code; in particular exit
code 42 with no output yields text containing "42". -/
theorem C8_execute_cmd_reports_exit_code (output : CmdOutput) :
    (∃ out, ExecuteCmd.processOutput output = .ok out) ∧
    (output.stdout = "" → output.stderr = "" →
      ExecuteCmd.processOutput output =
        .ok (ToolExecutionOutput.new [ToolExecutionOutputItem.Text
          ("Command exited with code " ++ toString (output.code.getD (-1)))]) ∧
      (output.code = some 42 →
        "42".toList <:+:
          ("Command exited with code " ++ toString (output.code.getD (-1))).toList)) := by
  constructor
  · exact ⟨_, rfl⟩
  · intro h1 h2
    constructor
    · simp [ExecuteCmd.processOutput, h1, h2]
    · intro hc
      rw [hc]
      decide

/-- Witness for C8 at the concrete completion (no output, exit code 42). -/
theorem C8_execute_cmd_reports_exit_code_witness :
    ExecuteCmd.processOutput ⟨"", "", some 42⟩ =
      .ok (ToolExecutionOutput.new [ToolExecutionOutputItem.Text
        "Command exited with code 42"]) := by
  have h := (C8_execute_cmd_reports_exit_code ⟨"", "", some 42⟩).2 rfl rfl
  simpa using h.1

/-! ## Theorems: `FsWrite` string replacement (C1) -/

theorem intercalate_nil_seg (sep : List Char) :
    List.intercalate sep ([] : List (List Char)) = [] := by
  simp [List.intercalate]

theorem intercalate_single (sep x : List Char) : List.intercalate sep [x] = x := by
  simp [List.intercalate]

theorem intercalate_cons_cons (sep x y : List Char) (rest : List (List Char)) :
    List.intercalate sep (x :: y :: rest) = x ++ sep ++ List.intercalate sep (y :: rest) := by
  simp [List.intercalate, List.intersperse_cons_cons, List.append_assoc]

theorem consHead_ne_nil (c : Char) (xss : List (List Char)) : consHead c xss ≠ [] := by
  cases xss <;> simp [consHead]

theorem length_consHead (c : Char) (xss : List (List Char)) (h : xss ≠ []) :
    (consHead c xss).length = xss.length := by
  cases xss with
  | nil => exact absurd rfl h
  | cons s ss => simp [consHead]

theorem intercalate_consHead (sep : List Char) (c : Char) (xss : List (List Char))
    (h : xss ≠ []) :
    List.intercalate sep (consHead c xss) = c :: List.intercalate sep xss := by
  cases xss with
  | nil => exact absurd rfl h
  | cons s ss =>
    cases ss with
    | nil => simp [consHead, intercalate_single]
    | cons s2 rest =>
      simp only [consHead, intercalate_cons_cons]
      simp

theorem splitOnList_ne_nil (old : List Char) : ∀ (hay : List Char), splitOnList old hay ≠ []
  | [] => by
    simp only [splitOnList]
    split <;> simp
  | c :: cs => by
    simp only [splitOnList]
    split
    · split <;> simp
    · exact consHead_ne_nil c _

theorem append_drop_of_isPrefixOf {old hay : List Char} (h : old.isPrefixOf hay) :
    old ++ hay.drop old.length = hay := by
  obtain ⟨t, ht⟩ := List.isPrefixOf_iff_prefix.mp h
  rw [← ht, List.drop_left]


theorem intercalate_pair (sep : List Char) :
    List.intercalate sep [[], []] = sep := by
  rw [intercalate_cons_cons, intercalate_single]
  simp

theorem intercalate_nil_head (sep : List Char) (xss : List (List Char)) (h : xss ≠ []) :
    List.intercalate sep ([] :: xss) = sep ++ List.intercalate sep xss := by
  cases xss with
  | nil => exact absurd rfl h
  | cons y rest =>
    rw [intercalate_cons_cons]
    simp

theorem splitOn_spec (old new : List Char) :
    ∀ (hay : List Char),
      List.intercalate old (splitOnList old hay) = hay ∧
      List.intercalate new (splitOnList old hay) = replaceAllList old new hay ∧
      ∀ i, (splitOnList old hay).length = (matchIndicesFrom old hay i).length + 1
  | [] => by
    by_cases he : old.isEmpty = true
    · have hsplit : splitOnList old [] = [[], []] := by simp [splitOnList, he]
      have hrep : replaceAllList old new [] = new := by simp [replaceAllList, he]
      have hold : old = [] := List.isEmpty_iff.mp he
      refine ⟨?_, ?_, ?_⟩
      · rw [hsplit, intercalate_pair, hold]
      · rw [hsplit, intercalate_pair, hrep]
      · intro i
        have hmi : matchIndicesFrom old [] i = [i] := by simp [matchIndicesFrom, he]
        rw [hsplit, hmi]
        rfl
    · have hef : old.isEmpty = false := by simpa using he
      have hsplit : splitOnList old [] = [[]] := by simp [splitOnList, hef]
      have hrep : replaceAllList old new [] = [] := by simp [replaceAllList, hef]
      refine ⟨?_, ?_, ?_⟩
      · rw [hsplit, intercalate_single]
      · rw [hsplit, intercalate_single, hrep]
      · intro i
        have hmi : matchIndicesFrom old [] i = [] := by simp [matchIndicesFrom, hef]
        rw [hsplit, hmi]
        rfl
  | c :: cs => by
    by_cases hp : old.isPrefixOf (c :: cs) = true
    · by_cases he : old.isEmpty = true
      · have hold : old = [] := List.isEmpty_iff.mp he
        have ih := splitOn_spec old new cs
        have hnn := splitOnList_ne_nil old cs
        have hcn := consHead_ne_nil c (splitOnList old cs)
        have hsplit : splitOnList old (c :: cs) = [] :: consHead c (splitOnList old cs) := by
          simp [splitOnList, hp, he]
        have hrep : replaceAllList old new (c :: cs) =
            new ++ c :: replaceAllList old new cs := by
          simp [replaceAllList, hp, he]
        have hmi : ∀ i, matchIndicesFrom old (c :: cs) i =
            i :: matchIndicesFrom old cs (i + 1) := by
          intro i
          simp [matchIndicesFrom, hp, he]
        refine ⟨?_, ?_, ?_⟩
        · rw [hsplit, intercalate_nil_head old _ hcn,
            intercalate_consHead old c _ hnn, ih.1, hold]
          simp
        · rw [hsplit, intercalate_nil_head new _ hcn,
            intercalate_consHead new c _ hnn, ih.2.1, hrep]
        · intro i
          rw [hsplit, hmi i]
          simp only [List.length_cons, length_consHead c _ hnn]
          rw [ih.2.2 (i + 1)]
      · have hef : old.isEmpty = false := by simpa using he
        have ih := splitOn_spec old new ((c :: cs).drop old.length)
        have hnn := splitOnList_ne_nil old ((c :: cs).drop old.length)
        have hsplit : splitOnList old (c :: cs) =
            [] :: splitOnList old ((c :: cs).drop old.length) := by
          simp [splitOnList, hp, hef]
        have hrep : replaceAllList old new (c :: cs) =
            new ++ replaceAllList old new ((c :: cs).drop old.length) := by
          simp [replaceAllList, hp, hef]
        have hmi : ∀ i, matchIndicesFrom old (c :: cs) i =
            i :: matchIndicesFrom old ((c :: cs).drop old.length) (i + old.length) := by
          intro i
          simp [matchIndicesFrom, hp, hef]
        refine ⟨?_, ?_, ?_⟩
        · rw [hsplit, intercalate_nil_head old _ hnn, ih.1]
          exact append_drop_of_isPrefixOf hp
        · rw [hsplit, intercalate_nil_head new _ hnn, ih.2.1, hrep]
        · intro i
          rw [hsplit, hmi i]
          simp only [List.length_cons]
          rw [ih.2.2 (i + old.length)]
    · have ih := splitOn_spec old new cs
      have hnn := splitOnList_ne_nil old cs
      have hsplit : splitOnList old (c :: cs) = consHead c (splitOnList old cs) := by
        simp [splitOnList, hp]
      have hrep : replaceAllList old new (c :: cs) = c :: replaceAllList old new cs := by
        simp [replaceAllList, hp]
      have hmi : ∀ i, matchIndicesFrom old (c :: cs) i = matchIndicesFrom old cs (i + 1) := by
        intro i
        simp [matchIndicesFrom, hp]
      refine ⟨?_, ?_, ?_⟩
      · rw [hsplit, intercalate_consHead old c _ hnn, ih.1]
      · rw [hsplit, intercalate_consHead new c _ hnn, ih.2.1, hrep]
      · intro i
        rw [hsplit, length_consHead c _ hnn, ih.2.2 (i + 1), hmi i]
termination_by hay => hay.length
decreasing_by
  · simp
  · have hlen : 0 < old.length := by
      cases old with
      | nil => simp at hef
      | cons _ _ => simp
    simp only [List.length_drop, List.length_cons]
    omega
  · simp

theorem replacenList_zero (old new hay : List Char) : replacenList old new hay 0 = hay := by
  cases hay <;> simp [replacenList]

theorem replacen_one_spec (old new : List Char) :
    ∀ (hay : List Char) (i : Nat), 1 ≤ (matchIndicesFrom old hay i).length →
      ∃ pre suf, hay = pre ++ old ++ suf ∧
        replacenList old new hay 1 = pre ++ new ++ suf
  | [], i => by
    intro h
    by_cases he : old.isEmpty = true
    · have hold : old = [] := List.isEmpty_iff.mp he
      refine ⟨[], [], by simp [hold], ?_⟩
      have hr : replacenList old new [] 1 = new := by simp [replacenList, he]
      rw [hr]
      simp
    · have hef : old.isEmpty = false := by simpa using he
      have hmi : matchIndicesFrom old [] i = [] := by simp [matchIndicesFrom, hef]
      rw [hmi] at h
      simp at h
  | c :: cs, i => by
    intro h
    by_cases hp : old.isPrefixOf (c :: cs) = true
    · by_cases he : old.isEmpty = true
      · have hold : old = [] := List.isEmpty_iff.mp he
        refine ⟨[], c :: cs, by simp [hold], ?_⟩
        have hr : replacenList old new (c :: cs) 1 =
            new ++ c :: replacenList old new cs 0 := by
          simp [replacenList, hp, he]
        rw [hr, replacenList_zero]
        simp
      · have hef : old.isEmpty = false := by simpa using he
        refine ⟨[], (c :: cs).drop old.length,
          by simpa using (append_drop_of_isPrefixOf hp).symm, ?_⟩
        have hr : replacenList old new (c :: cs) 1 =
            new ++ replacenList old new ((c :: cs).drop old.length) 0 := by
          simp [replacenList, hp, hef]
        rw [hr, replacenList_zero]
        simp
    · have hmi : matchIndicesFrom old (c :: cs) i = matchIndicesFrom old cs (i + 1) := by
        simp [matchIndicesFrom, hp]
      rw [hmi] at h
      obtain ⟨pre, suf, h1, h2⟩ := replacen_one_spec old new cs (i + 1) h
      have hr : replacenList old new (c :: cs) 1 = c :: replacenList old new cs 1 := by
        simp [replacenList, hp]
      refine ⟨c :: pre, suf, by simp [h1], ?_⟩
      rw [hr, h2]
      simp
termination_by hay _ => hay.length
decreasing_by
  · simp

/-- Claim C1: with `old_str` occurring zero times `StrReplace` errors and the
file is unchanged; occurring exactly once it replaces only that occurrence,
leaving all other characters identical; occurring more than once without
`replace_all` it errors with zero mutation; with `replace_all` it replaces
every occurrence (the file decomposes into segments interleaved with
`old_str`, and the result is the same segments interleaved with `new_str`).
Occurrences are the leftmost non-overlapping matches counted by
`str::match_indices`. -/
theorem C1_str_replace_occurrences (p : String) (old new file : List Char) (ra : Bool) :
    ((matchIndicesFrom old file 0).length = 0 →
      ∃ msg, StrReplace.replaceResult ⟨p, old, new, ra⟩ file =
        .error (.Custom msg)) ∧
    ((matchIndicesFrom old file 0).length = 1 →
      ∃ pre suf, file = pre ++ old ++ suf ∧
        StrReplace.replaceResult ⟨p, old, new, ra⟩ file = .ok (pre ++ new ++ suf)) ∧
    (1 < (matchIndicesFrom old file 0).length → ra = false →
      ∃ msg, StrReplace.replaceResult ⟨p, old, new, ra⟩ file =
        .error (.Custom msg)) ∧
    (1 < (matchIndicesFrom old file 0).length → ra = true →
      ∃ segs, segs.length = (matchIndicesFrom old file 0).length + 1 ∧
        file = List.intercalate old segs ∧
        StrReplace.replaceResult ⟨p, old, new, ra⟩ file =
          .ok (List.intercalate new segs)) ∧
    (∀ fs e, fs p = some file →
      StrReplace.replaceResult ⟨p, old, new, ra⟩ file = .error e →
      StrReplace.executeFs ⟨p, old, new, ra⟩ fs = (.error e, fs)) := by
  refine ⟨?_, ?_, ?_, ?_, ?_⟩
  · intro h
    refine ⟨"no occurrences of \"" ++ String.mk old ++ "\" were found", ?_⟩
    simp [StrReplace.replaceResult, h]
  · intro h
    obtain ⟨pre, suf, h1, h2⟩ := replacen_one_spec old new file 0 (by omega)
    refine ⟨pre, suf, h1, ?_⟩
    simp only [StrReplace.replaceResult, h]
    simp [h2]
  · intro h hra
    have h0 : ¬ (matchIndicesFrom old file 0).length = 0 := by omega
    have h1 : ¬ (matchIndicesFrom old file 0).length = 1 := by omega
    refine ⟨toString (matchIndicesFrom old file 0).length ++
      " occurrences of old_str were found when only 1 is expected", ?_⟩
    simp [StrReplace.replaceResult, h0, h1, hra]
  · intro h hra
    have h0 : ¬ (matchIndicesFrom old file 0).length = 0 := by omega
    have h1 : ¬ (matchIndicesFrom old file 0).length = 1 := by omega
    have hs := splitOn_spec old new file
    refine ⟨splitOnList old file, ?_, hs.1.symm, ?_⟩
    · rw [hs.2.2 0]
    · simp [StrReplace.replaceResult, h0, h1, hra]
      rw [hs.2.1]
  · intro fs e hfs herr
    simp only [StrReplace.executeFs, hfs, herr]

/-- Witness for C1 at a concrete file: replacing the single occurrence of
"b" in "ab" with "c". -/
theorem C1_str_replace_occurrences_witness :
    ∃ pre suf, ("ab".toList : List Char) = pre ++ "b".toList ++ suf ∧
      StrReplace.replaceResult ⟨"f.txt", "b".toList, "c".toList, false⟩ "ab".toList =
        .ok (pre ++ "c".toList ++ suf) := by
  have hcount : (matchIndicesFrom "b".toList "ab".toList 0).length = 1 := by
    simp +decide [matchIndicesFrom]
  exact (C1_str_replace_occurrences "f.txt" "b".toList "c".toList
    "ab".toList false).2.1 hcount

/-! ## Theorems: `FsWrite` insert (C3) and state passthrough (C9) -/

theorem flatten_consHead (c : Char) (xss : List (List Char)) :
    (consHead c xss).flatten = c :: xss.flatten := by
  cases xss <;> simp [consHead]

theorem flatten_linesWithEndings : ∀ (s : List Char), (linesWithEndings s).flatten = s
  | [] => rfl
  | c :: cs => by
    rw [linesWithEndings]
    split
    · next hc =>
      simp [flatten_linesWithEndings cs, hc]
    · rw [flatten_consHead, flatten_linesWithEndings cs]

theorem foldl_add_length (ls : List (List Char)) :
    ∀ (a : Nat), ls.foldl (fun acc line => acc + line.length) a =
      a + (ls.map List.length).sum := by
  induction ls with
  | nil => intro a; simp
  | cons l ls ih =>
    intro a
    simp only [List.foldl_cons, List.map_cons, List.sum_cons, ih]
    omega

theorem insertStrAt_append (pre suf t : List Char) :
    insertStrAt (pre ++ suf) pre.length t = pre ++ t ++ suf := by
  unfold insertStrAt
  rw [List.take_left, List.drop_left]

/-- Claim C3: `Insert` with an explicit `insert_line = L` splices the content
(forced to end with the platform terminator) exactly after
`min L line_count` complete lines-with-terminators — out-of-range `L` clamps
rather than erroring — and `Insert` without a line appends the content after
ensuring the file ends with the terminator. -/
theorem C3_insert_line_splice (p : String) (content file : List Char) (L : Nat) :
    (∃ suf,
      file = ((linesWithEndings file).take (min L (rustLines file).length)).flatten ++ suf ∧
      Insert.newContent ⟨p, content, some L⟩ file =
        ((linesWithEndings file).take (min L (rustLines file).length)).flatten ++
          (if NEWLINE.isSuffixOf content then content else content ++ NEWLINE) ++ suf) ∧
    (∃ base, (base = file ∨ base = file ++ NEWLINE) ∧ NEWLINE.isSuffixOf base ∧
      Insert.newContent ⟨p, content, none⟩ file = base ++ content) := by
  constructor
  · refine ⟨((linesWithEndings file).drop (min L (rustLines file).length)).flatten, ?_, ?_⟩
    · rw [← List.flatten_append, List.take_append_drop, flatten_linesWithEndings]
    · simp only [Insert.newContent]
      rw [foldl_add_length]
      simp only [Nat.zero_add]
      have hsum : ((List.take (min L (rustLines file).length) (linesWithEndings file)).map
          List.length).sum =
          ((linesWithEndings file).take (min L (rustLines file).length)).flatten.length := by
        rw [List.length_flatten]
      rw [hsum]
      have hfile : file =
          ((linesWithEndings file).take (min L (rustLines file).length)).flatten ++
            ((linesWithEndings file).drop (min L (rustLines file).length)).flatten := by
        rw [← List.flatten_append, List.take_append_drop, flatten_linesWithEndings]
      have happ := insertStrAt_append
        ((linesWithEndings file).take (min L (rustLines file).length)).flatten
        ((linesWithEndings file).drop (min L (rustLines file).length)).flatten
        (if NEWLINE.isSuffixOf content then content else content ++ NEWLINE)
      rw [← hfile] at happ
      exact happ
  · refine ⟨if NEWLINE.isSuffixOf file then file else file ++ NEWLINE, ?_, ?_, ?_⟩
    · split <;> simp
    · split
      · assumption
      · rw [ List.isSuffixOf_iff_suffix]
        exact List.suffix_append file NEWLINE
    · simp only [Insert.newContent]

/-- Claim C9 (amended): `FsWrite::execute` accepts the optional per-path
`FsWriteState` but neither reads nor mutates it — the `FileLineTracker` is
returned exactly as passed in, for every variant, every state and every file
system. -/
theorem C9_fswrite_state_passthrough (tool : FsWrite) (state : Option FsWriteState)
    (fs : FileSystem) : (FsWrite.execute tool state fs).2.1 = state := by
  cases tool <;> (
    simp only [FsWrite.execute]
    split <;> rfl)

/-- Counterexample to claim C9 as stated: a `Create` execution that writes a
three-line file, supplied with the default tracker state, returns the state
bit-for-bit unchanged — `after_fswrite_lines` stays 0 instead of reflecting
the 3-line write, and `is_first_write` stays `true` for every subsequent
write. -/
theorem C9_fswrite_state_not_updated_cex :
    (FsWrite.execute (FsWrite.Create ⟨"a.txt", "x\ny\nz".toList⟩)
        (some ⟨FileLineTracker.defaultTracker⟩) (fun _ => none)).2.1 =
      some ⟨FileLineTracker.defaultTracker⟩ ∧
    (rustLines "x\ny\nz".toList).length = 3 ∧
    FileLineTracker.defaultTracker.after_fswrite_lines = 0 ∧
    FileLineTracker.defaultTracker.is_first_write = true := by
  refine ⟨rfl, ?_, rfl, rfl⟩
  decide


/-! ## Theorems: `ImageRead` output items (C4) -/

/-- Claim C4 fails on the code: `ImageRead::execute` with an empty `paths`
list returns success with a truly empty item sequence, whereas the
execution-output invariant the claim states — and
`ToolExecutionOutput::default` implements — requires at least one (empty
text) item. -/
theorem C4_image_read_empty_output_cex
    (processPath : String → Except String String)
    (readImage : String → Except String ImageBlock) :
    ImageRead.execute processPath readImage ⟨[]⟩ = .ok (ToolExecutionOutput.new []) ∧
    (ToolExecutionOutput.new []).items.length = 0 ∧
    ToolExecutionOutput.defaultOutput.items.length = 1 := by
  refine ⟨?_, rfl, rfl⟩
  rfl

/-! ## Theorems: bounded file read (C7) -/

/-- Claim C7 fails on the code: reading the 11-byte file "abcdefghi" + α
(bytes 0xCE 0xB1) with `max_file_length = 10` decodes the bare lead byte at
the cut into the 3-byte U+FFFD, so with suffix "..." the returned content is
12 bytes — longer than `max_file_length`, contradicting the function's own
guarantee — and with the 2-byte suffix ".." the `replace_range` start offset
falls inside the replacement character and the call panics. -/
theorem C7_read_file_max_limit_cex :
    read_file_with_max_limit [97, 98, 99, 100, 101, 102, 103, 104, 105, 206, 177]
        10 "...".toList = some ("abcdefghi...".toList, 4) ∧
    utf8Len "abcdefghi...".toList = 12 ∧
    read_file_with_max_limit [97, 98, 99, 100, 101, 102, 103, 104, 105, 206, 177]
        10 "..".toList = none := by
  refine ⟨by decide, by decide, by decide⟩

/-! ## Theorems: `Ls` traversal (C2, C5) -/

theorem lsLoop_stop (globMatch : List String → String → Bool) (t : Ls) (maxDepth : Nat) :
    ∀ (q : List (List FsEntry × String × Nat)) (pfx res : List String),
      (∀ item ∈ q, maxDepth < item.2.2) →
      lsLoop globMatch t maxDepth q pfx res = (pfx, res)
  | [], pfx, res, _ => by rw [lsLoop]
  | (entries, dirPath, depth) :: queue, pfx, res, h => by
    have hd : depth > maxDepth := h _ (List.mem_cons_self _ _)
    rw [lsLoop]
    rw [if_pos hd]

theorem pushLoop_run (globMatch : List String → String → Bool) (dirPath : String)
    (depth n : Nat) (exceeded : Bool) :
    ∀ (es : List FsEntry) (res pfx : List String)
      (dirs : List (List FsEntry × String × Nat)),
      res.length ≤ MAX_LS_ENTRIES →
      (pushLoop globMatch dirPath depth n exceeded es res pfx dirs).1 =
        res ++ (es.map FsEntry.toLongFormat).take (MAX_LS_ENTRIES + 1 - res.length) ∧
      (pushLoop globMatch dirPath depth n exceeded es res pfx dirs).2.1 =
        pfx ++ (if MAX_LS_ENTRIES + 1 - res.length ≤ es.length then
          [truncationNotice dirPath n exceeded] else []) := by
  intro es
  induction es with
  | nil =>
    intro res pfx dirs h
    have hc : ¬ (MAX_LS_ENTRIES + 1 - res.length ≤ ([] : List FsEntry).length) := by
      simp only [List.length_nil]
      omega
    have hz : ¬ (MAX_LS_ENTRIES + 1 - res.length = 0) := by omega
    constructor
    · simp [pushLoop]
    · simp [pushLoop, hc, hz]
  | cons e rest ih =>
    intro res pfx dirs h
    by_cases hcap : (res ++ [e.toLongFormat]).length > MAX_LS_ENTRIES
    · have hlen : res.length = MAX_LS_ENTRIES := by
        simp only [List.length_append, List.length_cons, List.length_nil] at hcap
        omega
      have htk : MAX_LS_ENTRIES + 1 - res.length = 1 := by omega
      constructor
      · simp only [pushLoop]
        rw [if_pos hcap, htk, List.map_cons, List.take_succ_cons, List.take_zero]
      · simp only [pushLoop]
        rw [if_pos hcap, htk]
        have : (1 ≤ (e :: rest).length) := by simp
        rw [if_pos this]
    · have h' : (res ++ [e.toLongFormat]).length ≤ MAX_LS_ENTRIES := by omega
      obtain ⟨ih1, ih2⟩ := ih (res ++ [e.toLongFormat]) pfx
        (if e.isDir && ! globMatch IGNORE_PATTERNS e.path then
          dirs ++ [(e.children, e.path, depth + 1)]
        else dirs) h'
      have hres : (res ++ [e.toLongFormat]).length = res.length + 1 := by simp
      have hk : MAX_LS_ENTRIES + 1 - res.length =
          (MAX_LS_ENTRIES + 1 - (res.length + 1)) + 1 := by
        have : res.length ≤ MAX_LS_ENTRIES := h
        omega
      constructor
      · simp only [pushLoop]
        rw [if_neg hcap, ih1, hres, List.map_cons, hk, List.take_succ_cons]
        simp
      · simp only [pushLoop]
        rw [if_neg hcap, ih2, hres]
        have hiff : (MAX_LS_ENTRIES + 1 - (res.length + 1) ≤ rest.length) ↔
            (MAX_LS_ENTRIES + 1 - res.length ≤ (e :: rest).length) := by
          simp only [List.length_cons]
          omega
        simp only [hiff]

theorem pushLoop_dirs_depth (globMatch : List String → String → Bool)
    (dirPath : String) (depth n : Nat) (exceeded : Bool) :
    ∀ (es : List FsEntry) (res pfx : List String)
      (dirs : List (List FsEntry × String × Nat)),
      (∀ x ∈ dirs, x.2.2 = depth + 1) →
      ∀ x ∈ (pushLoop globMatch dirPath depth n exceeded es res pfx dirs).2.2,
        x.2.2 = depth + 1 := by
  intro es
  induction es with
  | nil =>
    intro res pfx dirs h
    simpa [pushLoop] using h
  | cons e rest ih =>
    intro res pfx dirs h
    simp only [pushLoop]
    split
    · simpa using h
    · apply ih
      intro x hx
      revert hx
      split
      · intro hx
        rcases List.mem_append.mp hx with h1 | h1
        · exact h x h1
        · rw [List.mem_singleton.mp h1]
      · intro hx
        exact h x hx

theorem lsLoop_depth0 (globMatch : List String → String → Bool) (t : Ls)
    (entries : List FsEntry) (dirPath : String) (pfx0 : List String) :
    lsLoop globMatch t 0 [(entries, dirPath, 0)] pfx0 [] =
      (pfx0 ++
        (if MAX_LS_ENTRIES + 1 ≤
            (entries.filter (fun e => ! t.matchesIgnorePatterns globMatch e.path)).length
          then
          [truncationNotice dirPath
            (entries.filter (fun e => ! t.matchesIgnorePatterns globMatch e.path)).length
            (decide ((entries.filter
              (fun e => ! t.matchesIgnorePatterns globMatch e.path)).length >
                MAX_ENTRY_COUNT_PER_DIR))]
        else []),
      ((((entries.filter (fun e => ! t.matchesIgnorePatterns globMatch e.path)).mergeSort
          (fun a b => decide (a.lastModified ≤ b.lastModified))).reverse.map
          FsEntry.toLongFormat).take (MAX_LS_ENTRIES + 1))) := by
  rw [lsLoop]
  rw [if_neg (by omega : ¬ ((0 : Nat) > 0))]
  have hsl : (((entries.filter
      (fun e => ! t.matchesIgnorePatterns globMatch e.path)).mergeSort
      (fun a b => decide (a.lastModified ≤ b.lastModified))).reverse).length =
      (entries.filter (fun e => ! t.matchesIgnorePatterns globMatch e.path)).length := by
    rw [List.length_reverse]
    exact (List.mergeSort_perm _ _).length_eq
  obtain ⟨h1, h2⟩ := pushLoop_run globMatch dirPath 0
    (entries.filter (fun e => ! t.matchesIgnorePatterns globMatch e.path)).length
    (decide ((entries.filter
      (fun e => ! t.matchesIgnorePatterns globMatch e.path)).length >
        MAX_ENTRY_COUNT_PER_DIR))
    (((entries.filter (fun e => ! t.matchesIgnorePatterns globMatch e.path)).mergeSort
      (fun a b => decide (a.lastModified ≤ b.lastModified))).reverse)
    [] pfx0 [] (by simp)
  have hdirs := pushLoop_dirs_depth globMatch dirPath 0
    (entries.filter (fun e => ! t.matchesIgnorePatterns globMatch e.path)).length
    (decide ((entries.filter
      (fun e => ! t.matchesIgnorePatterns globMatch e.path)).length >
        MAX_ENTRY_COUNT_PER_DIR))
    (((entries.filter (fun e => ! t.matchesIgnorePatterns globMatch e.path)).mergeSort
      (fun a b => decide (a.lastModified ≤ b.lastModified))).reverse)
    [] pfx0 [] (by intro x hx; simp at hx)
  rw [lsLoop_stop globMatch t 0 _ _ _
    (by intro item hitem
        have := hdirs item (by simpa using hitem)
        omega)]
  rw [h1, h2, hsl]
  simp


/-- Claim C2 (amended): for a depth-0 listing of a directory whose kept
(non-ignored) entries exceed the global cap, the output is one text item with
the prefix block before the entry listing (not appended), the prefix contains
the truncation notice naming the directory, its entry count and the
per-directory threshold marker, and the listing contains exactly
`MAX_LS_ENTRIES + 1` (1001) entry lines: the cap check runs after the push,
so one entry line beyond the 1000 cap is emitted (a deeper traversal adds up
to one more per directory processed after the cap is hit). -/
theorem C2_ls_global_cap_truncation (globMatch : List String → String → Bool)
    (userId : Nat) (path : String) (ignoreOpt : Option (List String))
    (entries : List FsEntry)
    (hk : MAX_LS_ENTRIES <
      (entries.filter (fun e =>
        ! (Ls.mk path (some 0) ignoreOpt).matchesIgnorePatterns globMatch e.path)).length) :
    ∃ pfx lines,
      Ls.executeModel globMatch userId (Ls.mk path (some 0) ignoreOpt) entries =
        ToolExecutionOutput.new [ToolExecutionOutputItem.Text
          (String.intercalate "\n" pfx ++ "\n" ++ String.intercalate "\n" lines)] ∧
      truncationNotice path
        (entries.filter (fun e =>
          ! (Ls.mk path (some 0) ignoreOpt).matchesIgnorePatterns globMatch e.path)).length
        (decide ((entries.filter (fun e =>
          ! (Ls.mk path (some 0) ignoreOpt).matchesIgnorePatterns
            globMatch e.path)).length > MAX_ENTRY_COUNT_PER_DIR)) ∈ pfx ∧
      lines.length = MAX_LS_ENTRIES + 1 := by
  have hd0 := lsLoop_depth0 globMatch (Ls.mk path (some 0) ignoreOpt) entries path
    ["User id: " ++ toString userId]
  refine ⟨(lsLoop globMatch (Ls.mk path (some 0) ignoreOpt) 0
      [(entries, path, 0)] ["User id: " ++ toString userId] []).1,
    (lsLoop globMatch (Ls.mk path (some 0) ignoreOpt) 0
      [(entries, path, 0)] ["User id: " ++ toString userId] []).2, rfl, ?_, ?_⟩
  · rw [hd0]
    have hcond : MAX_LS_ENTRIES + 1 ≤
        (entries.filter (fun e =>
          ! (Ls.mk path (some 0) ignoreOpt).matchesIgnorePatterns
            globMatch e.path)).length := by omega
    rw [if_pos hcond]
    simp
  · rw [hd0]
    have hlm : ((((entries.filter (fun e =>
        ! (Ls.mk path (some 0) ignoreOpt).matchesIgnorePatterns
          globMatch e.path)).mergeSort
        (fun a b => decide (a.lastModified ≤ b.lastModified))).reverse.map
        FsEntry.toLongFormat).length) =
        (entries.filter (fun e =>
          ! (Ls.mk path (some 0) ignoreOpt).matchesIgnorePatterns
            globMatch e.path)).length := by
      rw [List.length_map, List.length_reverse]
      exact (List.mergeSort_perm _ _).length_eq
    simp only [List.length_take, hlm]
    omega

/-- Witness for C2 at a concrete directory of 1002 files listed at depth 0:
the notice appears in the prefix and the listing holds 1001 entry lines. -/
theorem C2_ls_global_cap_truncation_witness :
    ∃ pfx lines,
      Ls.executeModel (fun _ _ => false) 0 (Ls.mk "root" (some 0) none)
          ((List.range 1002).map (fun k => FsEntry.mk (toString k) 0 false [])) =
        ToolExecutionOutput.new [ToolExecutionOutputItem.Text
          (String.intercalate "\n" pfx ++ "\n" ++ String.intercalate "\n" lines)] ∧
      truncationNotice "root"
        ((((List.range 1002).map (fun k => FsEntry.mk (toString k) 0 false [])).filter
          (fun e => ! (Ls.mk "root" (some 0) none).matchesIgnorePatterns
            (fun _ _ => false) e.path)).length)
        (decide (((((List.range 1002).map
          (fun k => FsEntry.mk (toString k) 0 false [])).filter
          (fun e => ! (Ls.mk "root" (some 0) none).matchesIgnorePatterns
            (fun _ _ => false) e.path)).length) > MAX_ENTRY_COUNT_PER_DIR)) ∈ pfx ∧
      lines.length = MAX_LS_ENTRIES + 1 := by
  apply C2_ls_global_cap_truncation (fun _ _ => false) 0 "root" none
  have hfe : ((((List.range 1002).map
      (fun k => FsEntry.mk (toString k) 0 false [])).filter
      (fun e => ! (Ls.mk "root" (some 0) none).matchesIgnorePatterns
        (fun _ _ => false) e.path))) =
      ((List.range 1002).map (fun k => FsEntry.mk (toString k) 0 false [])) := by
    simp [Ls.matchesIgnorePatterns]
  rw [hfe]
  simp [MAX_LS_ENTRIES]

/-- Counterexample to claim C2 as stated: at a 1002-file directory listed at
depth 0 the output contains 1001 entry lines, one more than the 1000 the
claim allows, because the cap check runs only after the line is pushed. -/
theorem C2_ls_cap_overshoot_cex :
    ∃ pfx lines,
      Ls.executeModel (fun _ _ => false) 0 (Ls.mk "root" (some 0) none)
          ((List.range 1002).map (fun k => FsEntry.mk (toString k) 0 false [])) =
        ToolExecutionOutput.new [ToolExecutionOutputItem.Text
          (String.intercalate "\n" pfx ++ "\n" ++ String.intercalate "\n" lines)] ∧
      MAX_LS_ENTRIES < lines.length := by
  have hd0 := lsLoop_depth0 (fun _ _ => false) (Ls.mk "root" (some 0) none)
    ((List.range 1002).map (fun k => FsEntry.mk (toString k) 0 false [])) "root"
    ["User id: " ++ toString 0]
  refine ⟨(lsLoop (fun _ _ => false) (Ls.mk "root" (some 0) none) 0
      [(((List.range 1002).map (fun k => FsEntry.mk (toString k) 0 false [])),
        "root", 0)] ["User id: " ++ toString 0] []).1,
    (lsLoop (fun _ _ => false) (Ls.mk "root" (some 0) none) 0
      [(((List.range 1002).map (fun k => FsEntry.mk (toString k) 0 false [])),
        "root", 0)] ["User id: " ++ toString 0] []).2, rfl, ?_⟩
  rw [hd0]
  have hfe : ((((List.range 1002).map
      (fun k => FsEntry.mk (toString k) 0 false [])).filter
      (fun e => ! (Ls.mk "root" (some 0) none).matchesIgnorePatterns
        (fun _ _ => false) e.path))) =
      ((List.range 1002).map (fun k => FsEntry.mk (toString k) 0 false [])) := by
    simp [Ls.matchesIgnorePatterns]
  have hlm : ((((((List.range 1002).map
      (fun k => FsEntry.mk (toString k) 0 false [])).filter
      (fun e => ! (Ls.mk "root" (some 0) none).matchesIgnorePatterns
        (fun _ _ => false) e.path)).mergeSort
      (fun a b => decide (a.lastModified ≤ b.lastModified))).reverse.map
      FsEntry.toLongFormat).length) = 1002 := by
    rw [List.length_map, List.length_reverse, (List.mergeSort_perm _ _).length_eq, hfe]
    simp
  simp only [List.length_take, hlm]
  simp [MAX_LS_ENTRIES]

/-- Claim C5: `Ls` orders the entries of a directory by last-modified
descending.  For a depth-0 listing the result lines render a permutation of
the kept entries sorted by modification time descending; in particular a
directory read as three entries with timestamps t1 < t2 < t3 lists them in
the order t3, t2, t1. -/
theorem C5_ls_mtime_descending (globMatch : List String → String → Bool)
    (path dirPath : String) (pfx0 : List String) (entries : List FsEntry)
    (e1 e2 e3 : FsEntry) :
    (∃ es', es'.Perm (entries.filter (fun e =>
        ! (Ls.mk path none none).matchesIgnorePatterns globMatch e.path)) ∧
      List.Pairwise (fun a b => b.lastModified ≤ a.lastModified) es' ∧
      (lsLoop globMatch (Ls.mk path none none) 0 [(entries, dirPath, 0)] pfx0 []).2 =
        (es'.map FsEntry.toLongFormat).take (MAX_LS_ENTRIES + 1)) ∧
    (e1.lastModified < e2.lastModified → e2.lastModified < e3.lastModified →
      (lsLoop globMatch (Ls.mk path none none) 0
          [([e1, e2, e3], dirPath, 0)] pfx0 []).2 =
        [e3.toLongFormat, e2.toLongFormat, e1.toLongFormat]) := by
  constructor
  · refine ⟨((entries.filter (fun e =>
        ! (Ls.mk path none none).matchesIgnorePatterns globMatch e.path)).mergeSort
        (fun a b => decide (a.lastModified ≤ b.lastModified))).reverse, ?_, ?_, ?_⟩
    · exact (List.reverse_perm _).trans (List.mergeSort_perm _ _)
    · rw [List.pairwise_reverse]
      have htrans : ∀ (a b c : FsEntry),
          (fun a b => decide (a.lastModified ≤ b.lastModified)) a b = true →
          (fun a b => decide (a.lastModified ≤ b.lastModified)) b c = true →
          (fun a b => decide (a.lastModified ≤ b.lastModified)) a c = true := by
        intro a b c hab hbc
        simp only [decide_eq_true_eq] at *
        omega
      have htotal : ∀ (a b : FsEntry),
          ((fun a b => decide (a.lastModified ≤ b.lastModified)) a b ||
           (fun a b => decide (a.lastModified ≤ b.lastModified)) b a) = true := by
        intro a b
        simp only [Bool.or_eq_true, decide_eq_true_eq]
        omega
      have hp := List.sorted_mergeSort htrans htotal
        (entries.filter (fun e =>
          ! (Ls.mk path none none).matchesIgnorePatterns globMatch e.path))
      exact hp.imp (fun h => by simpa using h)
    · rw [lsLoop_depth0 globMatch (Ls.mk path none none) entries dirPath pfx0]
  · intro h1 h2
    have hfilter : ([e1, e2, e3].filter (fun e =>
        ! (Ls.mk path none none).matchesIgnorePatterns globMatch e.path)) =
        [e1, e2, e3] := by
      simp [Ls.matchesIgnorePatterns]
    have hpw : List.Pairwise (fun a b =>
        (fun a b => decide (a.lastModified ≤ b.lastModified)) a b = true)
        [e1, e2, e3] := by
      refine List.Pairwise.cons ?_ (List.Pairwise.cons ?_
        (List.Pairwise.cons ?_ List.Pairwise.nil))
      · intro x hx
        simp only [List.mem_cons, List.not_mem_nil, or_false] at hx
        rcases hx with h | h <;> subst h <;>
          (simp only [decide_eq_true_eq]; omega)
      · intro x hx
        simp only [List.mem_cons, List.not_mem_nil, or_false] at hx
        subst hx
        simp only [decide_eq_true_eq]
        omega
      · intro x hx
        simp at hx
    have hms : ([e1, e2, e3].mergeSort
        (fun a b => decide (a.lastModified ≤ b.lastModified))) = [e1, e2, e3] :=
      List.mergeSort_of_sorted hpw
    rw [lsLoop_depth0 globMatch (Ls.mk path none none) [e1, e2, e3] dirPath pfx0,
      hfilter, hms]
    have hlen : (([e1, e2, e3].reverse.map FsEntry.toLongFormat)).length ≤
        MAX_LS_ENTRIES + 1 := by
      simp [MAX_LS_ENTRIES]
    rw [List.take_of_length_le hlen]
    simp

/-- Witness for C5 at three concrete entries with timestamps 1 < 2 < 3: the
listing renders them most recent first. -/
theorem C5_ls_mtime_descending_witness :
    (lsLoop (fun _ _ => false) (Ls.mk "p" none none) 0
        [([FsEntry.mk "a" 1 false [], FsEntry.mk "b" 2 false [],
           FsEntry.mk "c" 3 false []], "d", 0)] [] []).2 =
      [(FsEntry.mk "c" 3 false []).toLongFormat,
       (FsEntry.mk "b" 2 false []).toLongFormat,
       (FsEntry.mk "a" 1 false []).toLongFormat] :=
  (C5_ls_mtime_descending (fun _ _ => false) "p" "d" [] []
    (FsEntry.mk "a" 1 false []) (FsEntry.mk "b" 2 false [])
    (FsEntry.mk "c" 3 false [])).2 (by decide) (by decide)

end AgentCore
